import Mathlib

/-!
Verification of the expense-tracker store in `src/app/page.tsx`.

The application keeps an ordered in-memory collection of `Expense` records,
mutated by `addExpense` and `removeExpense`, mirrored to a browser key-value
slot as JSON, and rendered through derived views (`filtered`, `totals`,
`monthsAvailable`, the top-category card).  The embedding below translates
those parts of the source into Lean: JS numbers become exact rationals, the
JS `Map` becomes an insertion-ordered association list with `Map.get`/
`Map.set` semantics, `JSON.stringify`/`JSON.parse` act on a structural `Json`
value type, and the two stable built-in sorts are modelled by stable
insertion sorts (ECMAScript requires `Array.prototype.sort` to be stable).
-/

namespace ExpenseApp

/-- The `Expense` record (src/app/page.tsx:4-10).  Amounts are in major
currency units; JS numbers are modelled as exact rationals. -/
structure Expense where
  id : String
  date : String
  amount : ℚ
  category : String
  note : String
  deriving DecidableEq, Repr

/-- JS `Math.round`: rounds half away from zero toward positive infinity,
i.e. `Math.round x = ⌊x + 1/2⌋` for every finite `x`. -/
def jsRound (q : ℚ) : ℤ := ⌊q + 1 / 2⌋

/-- The amount normalisation in `addExpense` (src/app/page.tsx:65):
`Math.round(value * 100) / 100`. -/
def roundToCents (q : ℚ) : ℚ := (jsRound (q * 100) : ℚ) / 100

/-- Models `addExpense` (src/app/page.tsx:59-72) acting on the collection.
`value` is the result of `parseFloat` on the amount field: `none` models
`NaN` (empty or non-numeric input).  `newId` stands for the value produced
by `crypto.randomUUID()`.  The guard mirrors
`if (!date || isNaN(value) || value <= 0) return;` and on success the new
record is built with the rounded amount and the trimmed note and prepended
to the collection. -/
def addExpense (newId date : String) (value : Option ℚ) (category note : String)
    (prev : List Expense) : List Expense :=
  match value with
  | none => prev
  | some v =>
    if date = "" ∨ v ≤ 0 then prev
    else { id := newId, date := date, amount := roundToCents v,
           category := category, note := note.trim } :: prev

/-- Models `removeExpense` (src/app/page.tsx:74-76):
`prev.filter(e => e.id !== id)`. -/
def removeExpense (id : String) (prev : List Expense) : List Expense :=
  prev.filter fun e => e.id != id

/-- Models `monthKey` (src/app/page.tsx:19-22).  The source parses the ISO
date string at local midnight and prints `getFullYear()`, a dash, and the
zero-padded `getMonth() + 1`; on every valid zero-padded ISO date
`YYYY-MM-DD` that output is exactly the first seven characters of the input
string.  The spec declares the behaviour undefined on any other input, so
the embedding works directly on the character list. -/
def monthKey (dateStr : String) : String := String.mk (dateStr.data.take 7)

/-- Models `filtered` (src/app/page.tsx:50):
`expenses.filter(e => monthKey(e.date) === filterMonth)`. -/
def filteredByMonth (c : List Expense) (m : String) : List Expense :=
  c.filter fun e => monthKey e.date == m

/-- JS `Map.get` on an insertion-ordered association list. -/
def mapGet : List (String × ℚ) → String → Option ℚ
  | [], _ => none
  | p :: t, k => if p.1 = k then some p.2 else mapGet t k

/-- JS `Map.set` on an insertion-ordered association list: an existing key
keeps its position and has its value replaced; a new key is appended. -/
def mapSet : List (String × ℚ) → String → ℚ → List (String × ℚ)
  | [], k, v => [(k, v)]
  | p :: t, k, v => if p.1 = k then (k, v) :: t else p :: mapSet t k v

/-- The `total` component of `totals` (src/app/page.tsx:53):
`filtered.reduce((s, e) => s + e.amount, 0)`. -/
def totalOf (l : List Expense) : ℚ := l.foldl (fun s e => s + e.amount) 0

/-- The `byCategory` component of `totals` (src/app/page.tsx:54-55):
a `Map` accumulated over the filtered entries in order via
`byCategory.set(e.category, (byCategory.get(e.category) ?? 0) + e.amount)`. -/
def byCategory (l : List Expense) : List (String × ℚ) :=
  l.foldl (fun m e => mapSet m e.category ((mapGet m e.category).getD 0 + e.amount)) []

/-- The sum of the values of a category mapping. -/
def sumValues (m : List (String × ℚ)) : ℚ := (m.map Prod.snd).sum

/-- One step of a stable descending insertion sort on `(category, amount)`
entries.  The inserted element stands earlier in the original array than the
list it is inserted into, so under the comparator `(a, b) => b[1] - a[1]` it
must precede every element it ties with. -/
def insertEntry (p : String × ℚ) : List (String × ℚ) → List (String × ℚ)
  | [] => [p]
  | q :: t => if q.2 ≤ p.2 then p :: q :: t else q :: insertEntry p t

/-- Stable descending sort by summed amount, modelling
`Array.prototype.sort((a, b) => b[1] - a[1])` (ECMAScript sorts are
stable). -/
def sortEntriesDesc : List (String × ℚ) → List (String × ℚ)
  | [] => []
  | p :: t => insertEntry p (sortEntriesDesc t)

/-- Models the top-category computation (src/app/page.tsx:117-121):
`Array.from(totals.byCategory.entries()).sort((a, b) => b[1] - a[1])[0]`,
`none` when the mapping is empty (the card then shows a placeholder). -/
def topCategory (m : List (String × ℚ)) : Option (String × ℚ) :=
  (sortEntriesDesc m).head?

/-- JS `Set` iteration order over inserted keys: the first occurrence of each
key is kept, in encounter order (models `Array.from(new Set(...))`,
src/app/page.tsx:84). -/
def dedupKeys : List String → List String
  | [] => []
  | s :: t => s :: (dedupKeys t).filter fun x => x != s

/-- One step of a stable ascending insertion sort on strings, modelling the
default lexicographic comparator of `Array.prototype.sort`. -/
def insertKey (s : String) : List String → List String
  | [] => [s]
  | t :: r => if s ≤ t then s :: t :: r else t :: insertKey s r

/-- Stable ascending sort on strings, modelling `Array.prototype.sort()`
with its default lexicographic comparator (src/app/page.tsx:84). -/
def sortKeys : List String → List String
  | [] => []
  | s :: t => insertKey s (sortKeys t)

/-- Models `monthsAvailable` (src/app/page.tsx:83-87): the distinct month
keys of all entries, sorted ascending and reversed; when that list is empty
(i.e. the collection is empty) the current month's key is pushed instead.
`todayISO` stands for `new Date().toISOString().slice(0, 10)`. -/
def monthsAvailable (expenses : List Expense) (todayISO : String) : List String :=
  if (sortKeys (dedupKeys (expenses.map fun e => monthKey e.date))).reverse = []
  then [monthKey todayISO]
  else (sortKeys (dedupKeys (expenses.map fun e => monthKey e.date))).reverse

/-- JSON values: the structural image of `JSON.parse` / `JSON.stringify`. -/
inductive Json where
  | null : Json
  | bool : Bool → Json
  | num : ℚ → Json
  | str : String → Json
  | arr : List Json → Json
  | obj : List (String × Json) → Json

/-- `JSON.stringify` of one `Expense` record, as the JSON value it denotes
(the persisted layout of spec section 6:
`{id: string, date: string, amount: number, category: string, note: string}`). -/
def encodeExpense (e : Expense) : Json :=
  .obj [("id", .str e.id), ("date", .str e.date), ("amount", .num e.amount),
        ("category", .str e.category), ("note", .str e.note)]

/-- `JSON.stringify(expenses)` (src/app/page.tsx:46) as the JSON value it
denotes. -/
def encodeExpenses (c : List Expense) : Json := .arr (c.map encodeExpense)

/-- Reads one `Expense` back from a JSON value of the persisted layout
(spec section 6); `none` when the value is not Expense-shaped. -/
def decodeExpense : Json → Option Expense
  | .obj [("id", .str i), ("date", .str d), ("amount", .num a),
          ("category", .str cg), ("note", .str n)] =>
    some { id := i, date := d, amount := a, category := cg, note := n }
  | _ => none

/-- Reads a list of `Expense` records from a list of JSON values; `none` as
soon as one element is not Expense-shaped. -/
def decodeExpenseList : List Json → Option (List Expense)
  | [] => some []
  | j :: t =>
    match decodeExpense j, decodeExpenseList t with
    | some e, some es => some (e :: es)
    | _, _ => none

/-- Reads a collection from a JSON value: it must be an array of
Expense-shaped objects. -/
def decodeExpenses : Json → Option (List Expense)
  | .arr l => decodeExpenseList l
  | _ => none

/-- The contents of the `localStorage` slot as seen by the load effect:
`absent` models `getItem` returning null (or the falsy empty string),
`malformed` models text on which `JSON.parse` throws, and `value j` models
text that parses to the JSON value `j`. -/
inductive StoredValue where
  | absent : StoredValue
  | malformed : StoredValue
  | value : Json → StoredValue

/-- Models the load effect (src/app/page.tsx:37-42).  The result is the JS
value held by the `expenses` state after mount: when the slot is absent the
state keeps its initial `[]`; when `JSON.parse` throws, the catch block
swallows the error and the state likewise keeps its initial `[]`; otherwise
`setExpenses` installs the parsed value unvalidated (the `as Expense[]` cast
performs no runtime check). -/
def load : StoredValue → Json
  | .absent => .arr []
  | .malformed => .arr []
  | .value j => j

/-- Models the save effect (src/app/page.tsx:44-48): the collection is
serialised and written to the slot on every change. -/
def save (c : List Expense) : StoredValue := .value (encodeExpenses c)

/-- A sample expense used by concrete witnesses. -/
def exA : Expense :=
  { id := "a1", date := "2024-05-10", amount := 12, category := "Groceries", note := "" }

/-- A second sample expense used by concrete witnesses. -/
def exB : Expense :=
  { id := "b2", date := "2024-06-01", amount := 7, category := "Dining", note := "lunch" }

/-- Claim C1: for every valid input (non-empty date, amount parsing to a
positive number), `addExpense` grows the collection by exactly one and
prepends the new entry, which carries the freshly generated id, the amount
rounded to cents and the note trimmed of surrounding whitespace; when the
generated id is fresh, distinctness of ids is preserved. -/
theorem C1_add_valid (newId date : String) (v : ℚ) (category note : String)
    (c : List Expense) (hdate : date ≠ "") (hv : 0 < v) :
    (addExpense newId date (some v) category note c).length = c.length + 1 ∧
    addExpense newId date (some v) category note c =
      { id := newId, date := date, amount := roundToCents v, category := category,
        note := note.trim } :: c ∧
    (newId ∉ c.map Expense.id → (c.map Expense.id).Nodup →
      ((addExpense newId date (some v) category note c).map Expense.id).Nodup) := by
  have hguard : ¬(date = "" ∨ v ≤ 0) := by
    push_neg
    exact ⟨hdate, hv⟩
  refine ⟨?_, ?_, ?_⟩
  · simp [addExpense, if_neg hguard]
  · simp [addExpense, if_neg hguard]
  · intro hfresh hnodup
    simp only [addExpense, if_neg hguard, List.map_cons]
    exact List.nodup_cons.2 ⟨hfresh, hnodup⟩

/-- Witness for C1 at a concrete valid input. -/
theorem C1_add_valid_witness :
    (addExpense "u1" "2024-05-10" (some 5) "Dining" " note " []).length =
      ([] : List Expense).length + 1 ∧
    addExpense "u1" "2024-05-10" (some 5) "Dining" " note " [] =
      { id := "u1", date := "2024-05-10", amount := roundToCents 5, category := "Dining",
        note := (" note " : String).trim } :: ([] : List Expense) ∧
    ("u1" ∉ ([] : List Expense).map Expense.id → (([] : List Expense).map Expense.id).Nodup →
      ((addExpense "u1" "2024-05-10" (some 5) "Dining" " note " []).map Expense.id).Nodup) :=
  C1_add_valid "u1" "2024-05-10" 5 "Dining" " note " [] (by decide) (by decide)

/-- Claim C2: for every invalid input, an empty date, an amount that does not
parse (empty or non-numeric, i.e. `parseFloat` gave NaN), or a non-positive
amount, `addExpense` returns the collection unchanged: a silent no-op. -/
theorem C2_add_invalid (newId date : String) (value : Option ℚ) (category note : String)
    (c : List Expense)
    (h : date = "" ∨ value = none ∨ ∃ v, value = some v ∧ v ≤ 0) :
    addExpense newId date value category note c = c := by
  rcases h with h | h | ⟨w, hw, hle⟩
  · cases value with
    | none => rfl
    | some v =>
      simp only [addExpense]
      rw [if_pos (Or.inl h)]
  · subst h
    rfl
  · subst hw
    simp only [addExpense]
    rw [if_pos (Or.inr hle)]

/-- Witness for C2 at a concrete invalid input (empty date). -/
theorem C2_add_invalid_witness :
    addExpense "u1" "" (some 5) "Dining" "x" [exA] = [exA] :=
  C2_add_invalid "u1" "" (some 5) "Dining" "x" [exA] (Or.inl rfl)

/-- Claim C6: `removeExpense` is idempotent, and a no-op when no entry
carries the given id. -/
theorem C6_remove_idempotent (id : String) (c : List Expense) :
    removeExpense id (removeExpense id c) = removeExpense id c ∧
    ((∀ e ∈ c, e.id ≠ id) → removeExpense id c = c) := by
  constructor
  · simp [removeExpense, List.filter_filter]
  · intro h
    simp only [removeExpense]
    refine List.filter_eq_self.2 fun e he => ?_
    simpa using h e he

/-- Witness for C6 at a concrete id and collection without a match. -/
theorem C6_remove_idempotent_witness :
    removeExpense "a1" (removeExpense "a1" [exB]) = removeExpense "a1" [exB] ∧
    removeExpense "a1" [exB] = [exB] :=
  ⟨(C6_remove_idempotent "a1" [exB]).1,
   (C6_remove_idempotent "a1" [exB]).2 (by decide)⟩

/-- Claim C10: `removeExpense` keeps every entry whose id differs unchanged
and in its original relative order: the result is a sublist of the input
consisting of exactly the entries whose id differs from the removed one. -/
theorem C10_remove_frame (id : String) (c : List Expense) :
    (removeExpense id c).Sublist c ∧
    ∀ e, e ∈ removeExpense id c ↔ e ∈ c ∧ e.id ≠ id := by
  refine ⟨List.filter_sublist c, fun e => ?_⟩
  simp [removeExpense, List.mem_filter]

theorem sumValues_cons (p : String × ℚ) (t : List (String × ℚ)) :
    sumValues (p :: t) = p.2 + sumValues t := by
  simp [sumValues]

theorem sumValues_mapSet (m : List (String × ℚ)) (k : String) (a : ℚ) :
    sumValues (mapSet m k ((mapGet m k).getD 0 + a)) = sumValues m + a := by
  induction m with
  | nil => simp [mapSet, mapGet, sumValues]
  | cons p t ih =>
    by_cases hk : p.1 = k
    · simp only [mapSet, mapGet, if_pos hk, Option.getD_some, sumValues_cons]
      ring
    · simp only [mapSet, mapGet, if_neg hk, sumValues_cons, ih]
      ring

theorem sumValues_accumulate (l : List Expense) (acc : List (String × ℚ)) :
    sumValues (l.foldl
      (fun m e => mapSet m e.category ((mapGet m e.category).getD 0 + e.amount)) acc) =
      sumValues acc + (l.map Expense.amount).sum := by
  induction l generalizing acc with
  | nil => simp
  | cons e t ih =>
    rw [List.foldl_cons, ih, sumValues_mapSet, List.map_cons, List.sum_cons]
    ring

theorem foldl_add_amount (l : List Expense) (s : ℚ) :
    l.foldl (fun s e => s + e.amount) s = s + (l.map Expense.amount).sum := by
  induction l generalizing s with
  | nil => simp
  | cons e t ih =>
    rw [List.foldl_cons, ih, List.map_cons, List.sum_cons]
    ring

/-- Claim C3: for every collection and month key, the per-category sums of
the aggregate over the month-filtered collection add up exactly to its total
(exact equality, amounts being modelled as rationals). -/
theorem C3_aggregate_invariant (c : List Expense) (m : String) :
    sumValues (byCategory (filteredByMonth c m)) = totalOf (filteredByMonth c m) := by
  simp only [byCategory, totalOf]
  rw [sumValues_accumulate, foldl_add_amount]
  simp [sumValues]

theorem decodeExpense_encodeExpense (e : Expense) :
    decodeExpense (encodeExpense e) = some e := rfl

theorem decodeExpenseList_encode (c : List Expense) :
    decodeExpenseList (c.map encodeExpense) = some c := by
  induction c with
  | nil => rfl
  | cons e t ih =>
    rw [List.map_cons]
    simp only [decodeExpenseList, decodeExpense_encodeExpense, ih]

/-- Claim C4: saving a collection and loading it back reconstructs the very
same list of entries: the loaded JSON value decodes, under the persisted
layout of spec section 6, to exactly the saved collection. -/
theorem C4_save_load_roundtrip (c : List Expense) :
    decodeExpenses (load (save c)) = some c := by
  show decodeExpenses (encodeExpenses c) = some c
  simp only [encodeExpenses, decodeExpenses, decodeExpenseList_encode]

/-- Claim C5 fails as stated: a stored value that is valid JSON text but not
an array of Expense-shaped objects (here the JSON number 1) is not treated
as empty; the load effect installs it unvalidated, so the resulting state is
not the empty collection. -/
theorem C5_counterexample :
    decodeExpenses (Json.num 1) = none ∧
    load (StoredValue.value (Json.num 1)) ≠ Json.arr [] := by
  refine ⟨rfl, fun h => ?_⟩
  have h' : Json.num 1 = Json.arr [] := h
  exact Json.noConfusion h'

/-- Claim C5 amended: the load effect yields the empty collection exactly
when the slot is absent or its text is not valid JSON (the parse error is
swallowed); a value that parses is installed as-is, Expense-shaped or not.
No exception propagates in any case, `load` being total. -/
theorem C5_amended_load (j : Json) :
    load StoredValue.absent = Json.arr [] ∧
    load StoredValue.malformed = Json.arr [] ∧
    load (StoredValue.value j) = j :=
  ⟨rfl, rfl, rfl⟩

/-- Claim C9 fails as stated: `addExpense` never compares the date to the
current date, so a future-dated entry is accepted.  Concretely, with today
being 2024-05-10 (the date of `exA`), an add dated 9999-01-01 succeeds and
the stored date exceeds today. -/
theorem C9_counterexample :
    addExpense "u1" "9999-01-01" (some 5) "Other" "" [] =
      [{ id := "u1", date := "9999-01-01", amount := roundToCents 5, category := "Other",
         note := ("" : String).trim }] ∧
    ("2024-05-10" : String) < "9999-01-01" := by
  constructor
  · have hguard : ¬(("9999-01-01" : String) = "" ∨ (5 : ℚ) ≤ 0) := by
      push_neg
      exact ⟨by decide, by decide⟩
    simp [addExpense, if_neg hguard]
  · exact String.lt_iff_toList_lt.2 (by decide)

/-- Claim C9 amended: `addExpense` itself enforces no upper bound on the
date (the bound lives only in the date input's max attribute in the UI);
but whenever every date handed to add is at most the current date, as a
conforming date picker ensures, the no-future-date invariant of the
collection is preserved. -/
theorem C9_amended_invariant (newId date : String) (value : Option ℚ)
    (category note : String) (c : List Expense) (today : String)
    (hc : ∀ e ∈ c, e.date ≤ today) (hdate : date ≤ today) :
    ∀ e ∈ addExpense newId date value category note c, e.date ≤ today := by
  intro e he
  cases value with
  | none => exact hc e he
  | some v =>
    simp only [addExpense] at he
    by_cases hg : date = "" ∨ v ≤ 0
    · rw [if_pos hg] at he
      exact hc e he
    · rw [if_neg hg] at he
      rcases List.mem_cons.1 he with rfl | he
      · exact hdate
      · exact hc e he

/-- Witness for the amended C9 at a concrete bounded input: the entry added
with date 2024-05-10 while today is 2024-05-10 is not future-dated. -/
theorem C9_amended_invariant_witness :
    ({ id := "u1", date := "2024-05-10", amount := roundToCents 5, category := "Other",
       note := ("x" : String).trim } : Expense).date ≤ "2024-05-10" := by
  have hguard : ¬(("2024-05-10" : String) = "" ∨ (5 : ℚ) ≤ 0) := by
    push_neg
    exact ⟨by decide, by decide⟩
  refine C9_amended_invariant "u1" "2024-05-10" (some 5) "Other" "x" [] "2024-05-10"
    (by simp) (le_refl _) _ ?_
  simp [addExpense, if_neg hguard]

theorem mem_insertKey (s x : String) (l : List String) :
    x ∈ insertKey s l ↔ x = s ∨ x ∈ l := by
  induction l with
  | nil => simp [insertKey]
  | cons t r ih =>
    by_cases h : s ≤ t
    · simp only [insertKey, if_pos h, List.mem_cons]
    · simp only [insertKey, if_neg h, List.mem_cons, ih]
      tauto

theorem sorted_insertKey (s : String) (l : List String) (hl : l.Pairwise (· ≤ ·)) :
    (insertKey s l).Pairwise (· ≤ ·) := by
  induction l with
  | nil => simp [insertKey]
  | cons t r ih =>
    rcases List.pairwise_cons.1 hl with ⟨ht, hr⟩
    by_cases h : s ≤ t
    · simp only [insertKey, if_pos h]
      refine List.pairwise_cons.2 ⟨fun x hx => ?_, hl⟩
      rcases List.mem_cons.1 hx with rfl | hx
      · exact h
      · exact le_trans h (ht x hx)
    · simp only [insertKey, if_neg h]
      refine List.pairwise_cons.2 ⟨fun x hx => ?_, ih hr⟩
      rcases (mem_insertKey s x r).1 hx with rfl | hx
      · exact le_of_not_le h
      · exact ht x hx

theorem nodup_insertKey (s : String) (l : List String) (hs : s ∉ l) (hl : l.Nodup) :
    (insertKey s l).Nodup := by
  induction l with
  | nil => simp [insertKey]
  | cons t r ih =>
    rcases List.nodup_cons.1 hl with ⟨ht, hr⟩
    have hst : s ≠ t := by
      intro h
      rw [h] at hs
      exact hs (List.mem_cons_self t r)
    have hsr : s ∉ r := fun h => hs (List.mem_cons_of_mem t h)
    by_cases h : s ≤ t
    · simp only [insertKey, if_pos h]
      refine List.nodup_cons.2 ⟨?_, hl⟩
      simp [List.mem_cons, hst, hsr]
    · simp only [insertKey, if_neg h]
      refine List.nodup_cons.2 ⟨fun hmem => ?_, ih hsr hr⟩
      rcases (mem_insertKey s t r).1 hmem with h' | h'
      · exact hst h'.symm
      · exact ht h'

theorem mem_sortKeys (l : List String) (x : String) : x ∈ sortKeys l ↔ x ∈ l := by
  induction l with
  | nil => simp [sortKeys]
  | cons s t ih => simp [sortKeys, mem_insertKey, ih]

theorem sorted_sortKeys (l : List String) : (sortKeys l).Pairwise (· ≤ ·) := by
  induction l with
  | nil => simp [sortKeys]
  | cons s t ih => exact sorted_insertKey s (sortKeys t) ih

theorem nodup_sortKeys (l : List String) (hl : l.Nodup) : (sortKeys l).Nodup := by
  induction l with
  | nil => simp [sortKeys]
  | cons s t ih =>
    rcases List.nodup_cons.1 hl with ⟨hs, ht⟩
    refine nodup_insertKey s (sortKeys t) ?_ (ih ht)
    rw [mem_sortKeys]
    exact hs

theorem mem_dedupKeys (l : List String) (x : String) : x ∈ dedupKeys l ↔ x ∈ l := by
  induction l with
  | nil => simp [dedupKeys]
  | cons s t ih =>
    simp only [dedupKeys, List.mem_cons, List.mem_filter, ih, bne_iff_ne, ne_eq]
    by_cases hx : x = s
    · simp [hx]
    · simp [hx]

theorem nodup_dedupKeys (l : List String) : (dedupKeys l).Nodup := by
  induction l with
  | nil => simp [dedupKeys]
  | cons s t ih =>
    refine List.nodup_cons.2 ⟨fun hmem => ?_, List.Nodup.filter _ ih⟩
    have := (List.mem_filter.1 hmem).2
    simp at this

/-- Claim C7: `monthsAvailable` lists exactly the distinct month keys of all
entries of the collection (not only the filtered ones), in strictly
descending lexicographic order; on the empty collection it is exactly one
key, the current month's. -/
theorem C7_monthsAvailable (c : List Expense) (today : String) :
    (c = [] → monthsAvailable c today = [monthKey today]) ∧
    (c ≠ [] →
      (monthsAvailable c today).Pairwise (fun a b => b < a) ∧
      ∀ k, (k ∈ monthsAvailable c today ↔ k ∈ c.map fun e => monthKey e.date)) := by
  constructor
  · rintro rfl
    rfl
  · intro hc
    rcases c with _ | ⟨e, rest⟩
    · exact absurd rfl hc
    · have hmem0 : monthKey e.date ∈ (e :: rest).map fun x => monthKey x.date := by
        simp
      have hK : monthKey e.date ∈
          (sortKeys (dedupKeys ((e :: rest).map fun x => monthKey x.date))).reverse := by
        rw [List.mem_reverse, mem_sortKeys, mem_dedupKeys]
        exact hmem0
      have hKne :
          (sortKeys (dedupKeys ((e :: rest).map fun x => monthKey x.date))).reverse ≠ [] :=
        List.ne_nil_of_mem hK
      have hMA : monthsAvailable (e :: rest) today =
          (sortKeys (dedupKeys ((e :: rest).map fun x => monthKey x.date))).reverse := by
        simp only [monthsAvailable]
        rw [if_neg hKne]
      constructor
      · rw [hMA]
        refine List.pairwise_reverse.2 ?_
        have hsorted := sorted_sortKeys (dedupKeys ((e :: rest).map fun x => monthKey x.date))
        have hnd : (sortKeys (dedupKeys ((e :: rest).map fun x => monthKey x.date))).Pairwise
            (· ≠ ·) :=
          nodup_sortKeys _ (nodup_dedupKeys _)
        exact (hsorted.and hnd).imp fun h => lt_iff_le_and_ne.2 h
      · intro k
        rw [hMA, List.mem_reverse, mem_sortKeys, mem_dedupKeys]

/-- Witness for C7: the empty collection yields exactly the current month's
key, and a singleton collection yields its distinct keys sorted. -/
theorem C7_monthsAvailable_witness :
    monthsAvailable [] "2024-06-15" = [monthKey "2024-06-15"] ∧
    ((monthsAvailable [exA] "2024-06-15").Pairwise (fun a b => b < a) ∧
      ∀ k, (k ∈ monthsAvailable [exA] "2024-06-15" ↔ k ∈ [exA].map fun e => monthKey e.date)) :=
  ⟨(C7_monthsAvailable [] "2024-06-15").1 rfl,
   (C7_monthsAvailable [exA] "2024-06-15").2 (by simp)⟩

theorem insertEntry_ne_nil (p : String × ℚ) (l : List (String × ℚ)) :
    insertEntry p l ≠ [] := by
  cases l with
  | nil => simp [insertEntry]
  | cons q t =>
    simp only [insertEntry]
    split <;> simp

theorem sortEntriesDesc_ne_nil (p : String × ℚ) (t : List (String × ℚ)) :
    sortEntriesDesc (p :: t) ≠ [] := by
  simp only [sortEntriesDesc]
  exact insertEntry_ne_nil _ _

theorem head?_insertEntry (p q : String × ℚ) (t : List (String × ℚ)) :
    (insertEntry p (q :: t)).head? = some (if q.2 ≤ p.2 then p else q) := by
  by_cases h : q.2 ≤ p.2
  · simp [insertEntry, if_pos h]
  · simp [insertEntry, if_neg h]

theorem find?_congr_local (l : List (String × ℚ)) (p q : (String × ℚ) → Bool)
    (h : ∀ x ∈ l, p x = q x) : l.find? p = l.find? q := by
  induction l with
  | nil => rfl
  | cons a t ih =>
    have ha : p a = q a := h a (List.mem_cons_self a t)
    cases hpa : p a with
    | true =>
      rw [List.find?_cons_of_pos _ hpa, List.find?_cons_of_pos _ (ha ▸ hpa)]
    | false =>
      rw [List.find?_cons_of_neg _ (by simp [hpa]),
        List.find?_cons_of_neg _ (by simp [← ha, hpa])]
      exact ih fun x hx => h x (List.mem_cons_of_mem a hx)

/-- The head of the stable descending sort is the first entry of the original
list whose value is maximal. -/
theorem head?_sortEntriesDesc (m : List (String × ℚ)) :
    (sortEntriesDesc m).head? = m.find? fun q => m.all fun r => decide (r.2 ≤ q.2) := by
  induction m with
  | nil => rfl
  | cons p t ih =>
    rcases hq : sortEntriesDesc t with _ | ⟨q0, r⟩
    · have ht0 : t = [] := by
        cases t with
        | nil => rfl
        | cons b s => exact absurd hq (sortEntriesDesc_ne_nil b s)
      subst ht0
      show (insertEntry p []).head? = List.find? (fun q => [p].all fun r => decide (r.2 ≤ q.2)) [p]
      have hp1 : ((fun q => [p].all fun r => decide (r.2 ≤ q.2)) p) = true := by simp
      have hrw : List.find? (fun q => [p].all fun r => decide (r.2 ≤ q.2)) [p] = some p :=
        List.find?_cons_of_pos [] hp1
      rw [hrw]
      rfl
    · have hfind : List.find? (fun q => t.all fun r => decide (r.2 ≤ q.2)) t = some q0 := by
        rw [← ih, hq]
        rfl
      have hq0mem : q0 ∈ t := List.mem_of_find?_eq_some hfind
      have hq0max : ∀ x ∈ t, x.2 ≤ q0.2 := by
        have h0 := List.find?_some hfind
        intro x hx
        have := List.all_eq_true.1 h0 x hx
        simpa using this
      have hL : (sortEntriesDesc (p :: t)).head? = some (if q0.2 ≤ p.2 then p else q0) := by
        show (insertEntry p (sortEntriesDesc t)).head? = _
        rw [hq, head?_insertEntry]
      by_cases hpq : q0.2 ≤ p.2
      · rw [hL, if_pos hpq]
        have hp : ((fun q => (p :: t).all fun r => decide (r.2 ≤ q.2)) p) = true := by
          rw [List.all_eq_true]
          intro x hx
          rcases List.mem_cons.1 hx with rfl | hx
          · simp
          · simpa using le_trans (hq0max x hx) hpq
        have hrw : List.find? (fun q => (p :: t).all fun r => decide (r.2 ≤ q.2)) (p :: t) =
            some p :=
          List.find?_cons_of_pos t hp
        rw [hrw]
      · rw [hL, if_neg hpq]
        have hp : ¬((fun q => (p :: t).all fun r => decide (r.2 ≤ q.2)) p = true) := by
          rw [List.all_eq_true]
          intro hall
          exact hpq (by simpa using hall q0 (List.mem_cons_of_mem p hq0mem))
        have hrw : List.find? (fun q => (p :: t).all fun r => decide (r.2 ≤ q.2)) (p :: t) =
            List.find? (fun q => (p :: t).all fun r => decide (r.2 ≤ q.2)) t :=
          List.find?_cons_of_neg t hp
        rw [hrw, ← hfind]
        refine (find?_congr_local t _ _ fun x hx => ?_).symm
        rw [List.all_cons]
        cases hxall : (t.all fun r => decide (r.2 ≤ x.2)) with
        | true =>
          rw [Bool.and_true]
          have hx2 : q0.2 ≤ x.2 := by
            simpa using List.all_eq_true.1 hxall q0 hq0mem
          have : p.2 ≤ x.2 := le_trans (le_of_not_le hpq) hx2
          simp [this]
        | false =>
          rw [Bool.and_false]

/-- Claim C8: on a non-empty `byCategory` mapping, the top-category
computation returns an entry of the mapping with maximal summed amount, and
it is exactly the first maximal entry in the mapping's insertion
(accumulation) order: on ties the first maximum encountered wins. -/
theorem C8_topCategory (m : List (String × ℚ)) (h : m ≠ []) :
    ∃ p, topCategory m = some p ∧ p ∈ m ∧ (∀ q ∈ m, q.2 ≤ p.2) ∧
      (m.find? fun q => m.all fun r => decide (r.2 ≤ q.2)) = some p := by
  rcases hsort : sortEntriesDesc m with _ | ⟨x, xs⟩
  · rcases m with _ | ⟨a, t⟩
    · exact absurd rfl h
    · exact absurd hsort (sortEntriesDesc_ne_nil a t)
  · have hhead : (sortEntriesDesc m).head? = some x := by
      rw [hsort]
      rfl
    have hfind : (m.find? fun q => m.all fun r => decide (r.2 ≤ q.2)) = some x := by
      rw [← head?_sortEntriesDesc]
      exact hhead
    refine ⟨x, ?_, List.mem_of_find?_eq_some hfind, ?_, hfind⟩
    · show (sortEntriesDesc m).head? = some x
      exact hhead
    · intro q hq
      have h0 := List.find?_some hfind
      have := List.all_eq_true.1 h0 q hq
      simpa using this

/-- Witness for C8 on a concrete mapping with a tie between two categories. -/
theorem C8_topCategory_witness :
    ∃ p, topCategory [("A", (5 : ℚ)), ("B", 5)] = some p ∧
      p ∈ [("A", (5 : ℚ)), ("B", 5)] ∧
      (∀ q ∈ [("A", (5 : ℚ)), ("B", 5)], q.2 ≤ p.2) ∧
      ([("A", (5 : ℚ)), ("B", 5)].find? fun q =>
        [("A", (5 : ℚ)), ("B", 5)].all fun r => decide (r.2 ≤ q.2)) = some p :=
  C8_topCategory [("A", 5), ("B", 5)] (by simp)

end ExpenseApp
